import Mathlib

/- Shallow embedding of the DCR-graph execution and conformance core of the
dcr-js repository (src/dcr-engine/src/utility.ts and conformance.ts).

Modelling conventions:
- A JS `Set` of events is an insertion-ordered duplicate-free `List Event`;
  `Set.prototype.add` appends when absent, `Set.prototype.delete` removes.
- An `EventMap` is a total function `Event → List Event`; per the data model
  every event of the graph is a key and absent targets denote the empty set.
- The mutable `graph.marking` of the source is threaded explicitly: a function
  that mutates the marking takes it as an argument and returns the new value.
- The custom `Set.prototype.union` and `Set.prototype.intersect` used by the
  source live in a file that is not part of src/; following the repository
  usage pattern (sets are always copied before `intersect`/`difference`) and
  the specification, `union` mutates its receiver by inserting all elements
  of the argument, and `intersect`/`difference` are the usual set operations. -/

abbrev Event := String
abbrev Label := String
abbrev Role := String

/-- JS `Set.prototype.add`: no-op when the element is present, else append. -/
def setAdd (x : Event) (s : List Event) : List Event :=
  if x ∈ s then s else s ++ [x]

/-- JS `Set.prototype.delete`: remove the element. -/
def setDel (x : Event) (s : List Event) : List Event :=
  s.filter (fun y => y != x)

/-- Mutating `Set.prototype.union` (modelled from the spec, the prototype
extension file is not under src/): insert every element of `b` into `a`. -/
def listUnion (a b : List Event) : List Event :=
  b.foldl (fun acc x => setAdd x acc) a

/-- `utility.ts` `intersect` / the `Set.prototype.intersect` method:
elements of `a` that are also in `b`. -/
def intersectList (a b : List Event) : List Event :=
  a.filter (fun x => decide (x ∈ b))

/-- Set difference, as used via `copySet(s).difference(t)`. -/
def differenceList (a b : List Event) : List Event :=
  a.filter (fun x => decide (x ∉ b))

/-- Union of `f k` over all keys `k` (the `conditions` accumulation loop of
`graphToGraphPP`, which iterates the keys of `conditionsFor`, i.e. all
events, and unions each value into an initially empty set). -/
def unionMapped (keys : List Event) (f : Event → List Event) : List Event :=
  keys.foldl (fun acc k => listUnion acc (f k)) []

/-- The marking of a DCR graph (types.ts `Marking`). -/
structure Marking where
  executed : List Event
  included : List Event
  pending : List Event
deriving DecidableEq

/-- `utility.ts` `copyMarking` (a deep copy; in the pure model a copy is the
value itself). -/
def copyMarking (m : Marking) : Marking :=
  { executed := m.executed, included := m.included, pending := m.pending }

/-- The static part of a DCR graph (types.ts `DCRGraph`), with the marking
field holding the initial marking. -/
structure DCRGraph where
  events : List Event
  labels : List Label
  labelMap : Event → Label
  labelMapInv : Label → List Event
  conditionsFor : Event → List Event
  milestonesFor : Event → List Event
  responseTo : Event → List Event
  excludesTo : Event → List Event
  includesTo : Event → List Event
  marking : Marking

/-- types.ts `LabelDCRPP`: a graph together with the `Optimizations` fields
added by `graphToGraphPP`. -/
structure DCRGraphPP extends DCRGraph where
  conditions : List Event
  includesFor : Event → List Event
  excludesFor : Event → List Event

/-- `utility.ts` `flipEventMap`: reverse a relation; the keys of the result
cover all events of the graph. -/
def flipEventMap (events : List Event) (em : Event → List Event) : Event → List Event :=
  fun tgt => events.filter (fun src => decide (tgt ∈ em src))

/-- `utility.ts` `reverseRelation`: same reversal, used by `quantifyViolations`. -/
def reverseRelation (events : List Event) (em : Event → List Event) : Event → List Event :=
  fun tgt => events.filter (fun src => decide (tgt ∈ em src))

/-- `utility.ts` `graphToGraphPP`: add the union of all conditioning events
plus the two reversed relations. -/
def graphToGraphPP (g : DCRGraph) : DCRGraphPP :=
  { toDCRGraph := g
    conditions := unionMapped g.events g.conditionsFor
    includesFor := flipEventMap g.events g.includesTo
    excludesFor := flipEventMap g.events g.excludesTo }

/-- `utility.ts` `execute` (the optimised kernel): conditionally dirty
`executed`, clear the own pending flag, add responses to pending, remove
excluded events, then add included events. -/
def execute (e : Event) (g : DCRGraphPP) (m : Marking) : Marking :=
  let ex := if e ∈ g.conditions then setAdd e m.executed else m.executed
  let pend0 := setDel e m.pending
  let pend := (g.responseTo e).foldl (fun p r => setAdd r p) pend0
  let incl0 := (g.excludesTo e).foldl (fun i x => setDel x i) m.included
  let incl := (g.includesTo e).foldl (fun i x => setAdd x i) incl0
  { executed := ex, included := incl, pending := pend }

/-- `utility.ts` `isAccepting`: the intersection of pending and included is
empty. -/
def isAccepting (m : Marking) : Bool :=
  (intersectList m.pending m.included).isEmpty

/-- `utility.ts` `isEnabled`: included, all conditions executed or excluded,
all milestones non-pending or excluded. -/
def isEnabled (e : Event) (g : DCRGraph) (m : Marking) : Bool :=
  decide (e ∈ m.included) &&
    (g.conditionsFor e).all (fun c => !(decide (c ∈ m.included) && !decide (c ∈ m.executed))) &&
    (g.milestonesFor e).all (fun w => !(decide (w ∈ m.included) && decide (w ∈ m.pending)))

/-- `utility.ts` `getEnabled`: the source deletes from a copy of `events`
every event failing one of the three `isEnabled` checks, which filters
`events` by exactly the `isEnabled` predicate. -/
def getEnabled (g : DCRGraph) (m : Marking) : List Event :=
  g.events.filter (fun e => isEnabled e g m)

/-- `utility.ts` `newGraphEnv`: save the marking, install a copy, run the
closure, assign the saved marking back, return the closure result.  The
closure is modelled as a state transformer that may also raise (`Except`);
in the source nothing catches a raised error, so the final assignment is
skipped on that path and the marking stays whatever the closure left. -/
def newGraphEnv {T E : Type} (m : Marking) (fn : Marking → Except E T × Marking) :
    Except E T × Marking :=
  let r := fn (copyMarking m)
  match r.1 with
  | Except.ok v => (Except.ok v, m)
  | Except.error err => (Except.error err, r.2)

/- Concrete graphs used to witness or refute individual claims. -/

/-- The empty event map. -/
def emptyMap : Event → List Event := fun _ => []

/-- A marking with a single included event `a`. -/
def markA : Marking := { executed := [], included := ["a"], pending := [] }

/-- Base graph with one event `a` labelled `A` and no relations. -/
def gBase : DCRGraph :=
  { events := ["a"], labels := ["A"]
    labelMap := fun _ => "A"
    labelMapInv := fun l => if l = "A" then ["a"] else []
    conditionsFor := emptyMap, milestonesFor := emptyMap
    responseTo := emptyMap, excludesTo := emptyMap, includesTo := emptyMap
    marking := markA }

/-- Graph with a self-response `a •→ a`, used against claim C2. -/
def gSelfResponse : DCRGraphPP :=
  { toDCRGraph :=
      { gBase with responseTo := fun e => if e = "a" then ["a"] else [] }
    conditions := [], includesFor := emptyMap, excludesFor := emptyMap }

/-- Graph with a self-exclude and self-include on `a`, used for claim C4. -/
def gSelfExclIncl : DCRGraphPP :=
  { toDCRGraph :=
      { gBase with
          excludesTo := fun e => if e = "a" then ["a"] else []
          includesTo := fun e => if e = "a" then ["a"] else [] }
    conditions := [], includesFor := emptyMap, excludesFor := emptyMap }

/-- The empty marking. -/
def mEmpty : Marking := { executed := [], included := [], pending := [] }

/-- A closure that dirties the scratch marking and then raises. -/
def throwingClosure : Marking → Except Unit Unit × Marking :=
  fun _ => (Except.error (), { executed := ["x"], included := [], pending := [] })

/-- A closure that dirties the scratch marking and returns normally. -/
def okClosure : Marking → Except Unit Bool × Marking :=
  fun mk => (Except.ok true, { mk with executed := ["y"] })

/- Conformance engine (conformance.ts).  The execution primitives `executeS`,
`isEnabledS` and `isAcceptingS` live in executionEngine.ts, which is not under
src/; they are modelled from the spec (section 4.1).  Sub-processes are not
modelled: `subProcessMap` is empty, so the group of every event is the graph
itself and `isEnabledS` coincides with the plain enabledness check. -/

/-- types.ts `DCRGraphS`: a graph with a role map (sub-process map omitted,
see above). -/
structure DCRGraphS extends DCRGraph where
  roleMap : Event → Role

/-- Modelled from the spec: executionEngine.ts `isEnabledS` with the group
equal to the graph (no sub-processes). -/
def isEnabledS (e : Event) (g : DCRGraphS) (m : Marking) : Bool :=
  isEnabled e g.toDCRGraph m

/-- Modelled from the spec: executionEngine.ts `executeS`, steps 1 to 5 of the
spec `execute`; on a plain graph (no `conditions` optimisation field) the
executed flag is set unconditionally. -/
def executeS (e : Event) (g : DCRGraphS) (m : Marking) : Marking :=
  let ex := setAdd e m.executed
  let pend0 := setDel e m.pending
  let pend := (g.responseTo e).foldl (fun p r => setAdd r p) pend0
  let incl0 := (g.excludesTo e).foldl (fun i x => setDel x i) m.included
  let incl := (g.includesTo e).foldl (fun i x => setAdd x i) incl0
  { executed := ex, included := incl, pending := pend }

/-- Modelled from the spec: executionEngine.ts `isAcceptingS` (pending and
included intersect emptily). -/
def isAcceptingS (_g : DCRGraphS) (m : Marking) : Bool :=
  isAccepting m

/-- One entry of a role trace: a `(role, activity)` pair. -/
structure RoleTraceEntry where
  role : Role
  activity : Label
deriving DecidableEq

abbrev RoleTrace := List RoleTraceEntry

/-- conformance.ts `replayTraceS`: does the trace correspond to some accepting
run?  Unknown activities are skipped (open world); otherwise every event with
matching label and role that is enabled is tried, and the results are ORed. -/
def replayTraceS (g : DCRGraphS) : RoleTrace → Marking → Bool
  | [], m => isAcceptingS g m
  | head :: tail, m =>
    if head.activity ∈ g.labels then
      (g.labelMapInv head.activity).any (fun e =>
        decide (head.role = g.roleMap e) && isEnabledS e g m &&
          replayTraceS g tail (executeS e g m))
    else
      replayTraceS g tail m

/-- conformance.ts `FuzzyRelation`: a double map of counters; absent cells
are zero, so a total function models it. -/
abbrev FuzzyRelation := Event → Event → ℕ

/-- conformance.ts `RelationViolations`. -/
structure RelationViolations where
  conditionsFor : FuzzyRelation
  responseTo : FuzzyRelation
  excludesTo : FuzzyRelation
  milestonesFor : FuzzyRelation

/-- conformance.ts `mergeFuzRels`: cell-wise addition over the union of keys. -/
def mergeFuzRels (a b : FuzzyRelation) : FuzzyRelation :=
  fun x y => a x y + b x y

/-- conformance.ts `mergeViolations`. -/
def mergeViolations (a b : RelationViolations) : RelationViolations :=
  { conditionsFor := mergeFuzRels a.conditionsFor b.conditionsFor
    responseTo := mergeFuzRels a.responseTo b.responseTo
    excludesTo := mergeFuzRels a.excludesTo b.excludesTo
    milestonesFor := mergeFuzRels a.milestonesFor b.milestonesFor }

/-- conformance.ts `emptyFuzzyRel`: a zero matrix over all events (total zero
function in the model). -/
def emptyFuzzyRel : FuzzyRelation := fun _ _ => 0

/-- All four relation matrices zero (also models the empty object literals
used to initialise the best matrices). -/
def emptyRelViolations : RelationViolations :=
  { conditionsFor := emptyFuzzyRel, responseTo := emptyFuzzyRel
    excludesTo := emptyFuzzyRel, milestonesFor := emptyFuzzyRel }

/-- conformance.ts `computeActivations`: indicator matrix of the outgoing
relation edges of the just-executed event, over the events of the graph. -/
def computeActivations (executedEvent : Event) (events : List Event)
    (rel : Event → List Event) : FuzzyRelation :=
  fun x y =>
    if x ∈ events ∧ y ∈ events ∧ x = executedEvent ∧ y ∈ rel x then 1 else 0

/-- Result record of `quantifyViolations`; `totalViolations` starts at the
JS `Infinity`, hence the extended naturals. -/
structure QuantRes where
  totalViolations : ℕ∞
  violations : RelationViolations
  activations : RelationViolations

/-- End-of-trace response-violation count: one per pair of a pending included
event and a response source executed since that event last executed. -/
def endOfTraceTotal (responseFor : Event → List Event) (m : Marking)
    (exEx : Event → List Event) : ℕ :=
  ((intersectList m.pending m.included).map
    (fun e => (intersectList (responseFor e) (exEx e)).length)).sum

/-- End-of-trace `responseTo` violation matrix. -/
def endOfTraceResponseTo (responseFor : Event → List Event) (m : Marking)
    (exEx : Event → List Event) : FuzzyRelation :=
  fun o e =>
    if e ∈ intersectList m.pending m.included ∧
        o ∈ intersectList (responseFor e) (exEx e) then 1 else 0

/-- The value returned by `quantifyRec` on the empty trace. -/
def endOfTraceRes (responseFor : Event → List Event) (m : Marking)
    (exEx : Event → List Event) : QuantRes :=
  { totalViolations := (endOfTraceTotal responseFor m exEx : ℕ)
    violations :=
      { emptyRelViolations with responseTo := endOfTraceResponseTo responseFor m exEx }
    activations := emptyRelViolations }

/-- Condition violations of a candidate event: conditioning events neither
executed nor excluded. -/
def condViolList (g : DCRGraphS) (m : Marking) (e : Event) : List Event :=
  (differenceList (g.conditionsFor e) m.executed).filter
    (fun c => decide (c ∈ m.included))

/-- Milestone violations of a candidate event: milestoning events pending and
included. -/
def milViolList (g : DCRGraphS) (m : Marking) (e : Event) : List Event :=
  (intersectList (g.milestonesFor e) m.pending).filter
    (fun c => decide (c ∈ m.included))

/-- Exclude violations: counted only when the candidate is excluded, one per
excluder executed since the candidate was last included. -/
def exclViolList (excludesFor : Event → List Event) (m : Marking)
    (exIn : Event → List Event) (e : Event) : List Event :=
  if e ∈ m.included then [] else intersectList (exIn e) (excludesFor e)

/-- `localViolationCount` accumulated for one candidate event. -/
def localViolationCount (g : DCRGraphS) (excludesFor : Event → List Event)
    (m : Marking) (exIn : Event → List Event) (e : Event) : ℕ :=
  (condViolList g m e).length + (milViolList g m e).length +
    (exclViolList excludesFor m exIn e).length

/-- The `localViolations` matrices for one candidate event. -/
def localViolationsRel (g : DCRGraphS) (excludesFor : Event → List Event)
    (m : Marking) (exIn : Event → List Event) (e : Event) : RelationViolations :=
  { conditionsFor := fun x y => if x = e ∧ y ∈ condViolList g m e then 1 else 0
    milestonesFor := fun x y => if x = e ∧ y ∈ milViolList g m e then 1 else 0
    excludesTo := fun x y =>
      if y = e ∧ x ∈ exclViolList excludesFor m exIn e then 1 else 0
    responseTo := emptyFuzzyRel }

/-- The `localActivations` matrices for one candidate event. -/
def localActivations (g : DCRGraphS) (e : Event) : RelationViolations :=
  { conditionsFor := computeActivations e g.events g.conditionsFor
    responseTo := computeActivations e g.events g.responseTo
    excludesTo := computeActivations e g.events g.excludesTo
    milestonesFor := computeActivations e g.events g.milestonesFor }

/-- Auxiliary-state update after executing `e`: events included by `e` have
their since-included history cleared, then `e` is recorded for every event of
the graph. -/
def updExSinceIn (g : DCRGraphS) (e : Event)
    (exIn : Event → List Event) : Event → List Event :=
  fun o =>
    let cleared := if o ∈ g.includesTo e then ([] : List Event) else exIn o
    if o ∈ g.events then setAdd e cleared else cleared

/-- Auxiliary-state update: `e` is recorded as executed for every event, then
the history of `e` itself is reset to the singleton. -/
def updExSinceEx (g : DCRGraphS) (e : Event)
    (exEx : Event → List Event) : Event → List Event :=
  fun o =>
    if o = e then [e]
    else if o ∈ g.events then setAdd e (exEx o) else exEx o

/-- The initial best branch: `leastViolations = Infinity` with empty
matrices. -/
def initBestQuant : QuantRes :=
  { totalViolations := ⊤
    violations := emptyRelViolations
    activations := emptyRelViolations }

/-- Branch selection: keep the branch if it strictly lowers the total. -/
def pickBest (best : QuantRes) (localCount : ℕ)
    (localV localA : RelationViolations) (q : QuantRes) : QuantRes :=
  if (localCount : ℕ∞) + q.totalViolations < best.totalViolations then
    { totalViolations := (localCount : ℕ∞) + q.totalViolations
      violations := mergeViolations localV q.violations
      activations := mergeViolations localA q.activations }
  else best

/-- The candidate loop of `quantifyRec`: events with mismatching role are
skipped, otherwise the branch is scored, executed, recursed into and offered
to the best-branch selection.  A raised lookup error in the recursion
propagates. -/
def quantifyFold (g : DCRGraphS) (excludesFor : Event → List Event)
    (head : RoleTraceEntry) (m : Marking) (exIn exEx : Event → List Event)
    (recTail : Marking → (Event → List Event) → (Event → List Event) →
      Except Unit QuantRes) :
    List Event → QuantRes → Except Unit QuantRes
  | [], best => Except.ok best
  | e :: rest, best =>
    if head.role = g.roleMap e then
      match recTail (executeS e g m) (updExSinceIn g e exIn) (updExSinceEx g e exEx) with
      | Except.error u => Except.error u
      | Except.ok q =>
        quantifyFold g excludesFor head m exIn exEx recTail rest
          (pickBest best (localViolationCount g excludesFor m exIn e)
            (localViolationsRel g excludesFor m exIn e) (localActivations g e) q)
    else quantifyFold g excludesFor head m exIn exEx recTail rest best

/-- conformance.ts `quantifyRec`.  An activity outside the label set makes
the source dereference `labelMapInv[activity]` as `undefined` and throw,
modelled as `Except.error` (the open-world skip exists only in the replay). -/
def quantifyRec (g : DCRGraphS) (excludesFor responseFor : Event → List Event) :
    RoleTrace → Marking → (Event → List Event) → (Event → List Event) →
      Except Unit QuantRes
  | [], m, _, exEx => Except.ok (endOfTraceRes responseFor m exEx)
  | head :: tail, m, exIn, exEx =>
    if head.activity ∈ g.labels then
      quantifyFold g excludesFor head m exIn exEx
        (fun m2 a b => quantifyRec g excludesFor responseFor tail m2 a b)
        (g.labelMapInv head.activity) initBestQuant
    else Except.error ()

/-- conformance.ts `quantifyViolations`. -/
def quantifyViolations (g : DCRGraphS) (t : RoleTrace) : Except Unit QuantRes :=
  quantifyRec g (reverseRelation g.events g.excludesTo)
    (reverseRelation g.events g.responseTo) t g.marking emptyMap emptyMap

/-- The one-event graph with all roles `r`, for the conformance claims. -/
def gS : DCRGraphS :=
  { toDCRGraph := gBase, roleMap := fun _ => "r" }

/-- Lexicographic comparison of the character lists underlying two id
strings (the default JS `Array.prototype.sort` comparison on strings). -/
def charListLe : List Char → List Char → Bool
  | [], _ => true
  | _ :: _, [] => false
  | a :: as, b :: bs => if a < b then true else if b < a then false else charListLe as bs

/-- String comparison used by the sort in `stateToStr`. -/
def strLe (a b : Event) : Bool := charListLe a.data b.data

/-- Insert an id into an already sorted list. -/
def insertSorted (x : Event) : List Event → List Event
  | [] => [x]
  | y :: ys => if strLe x y then x :: y :: ys else y :: insertSorted x ys

/-- JS `Array.prototype.sort` on id strings, as an insertion sort. -/
def sortStrs : List Event → List Event
  | [] => []
  | x :: xs => insertSorted x (sortStrs xs)

/-- JS `Array.prototype.join` with its default comma separator, on the
character lists underlying the id strings. -/
def commaJoinCh : List (List Char) → List Char
  | [] => []
  | [x] => x
  | x :: y :: ys => x ++ ',' :: commaJoinCh (y :: ys)

/-- One section of `stateToStr`: the sorted ids joined with commas. -/
def sectionCh (l : List Event) : List Char :=
  commaJoinCh ((sortStrs l).map String.data)

/-- `utility.ts` `stateToStr`: for each marking component in key order
(executed, included, pending), the sorted ids joined by commas, each section
terminated by a semicolon. -/
def stateToStr (m : Marking) : String :=
  String.mk (sectionCh m.executed ++ ';' ::
    (sectionCh m.included ++ ';' :: (sectionCh m.pending ++ [';'])))

/-- JSON values as handled by `JSON.stringify` and `JSON.parse` in
`utility.ts`.  Scalars (strings, numbers, booleans, null) are opaque atoms,
equal exactly when the underlying JS primitives are: the textual layer of
JSON is standard and out of the model; the replacer `set2JSON` and the
reviver `JSON2Set` act on the value trees. -/
inductive JVal where
  | atom : String → JVal
  | arr : List JVal → JVal
  | obj : List (String × JVal) → JVal

/-- Values of the core data model: JSON values plus JS `Set`s, kept with
their insertion order. -/
inductive SVal where
  | atom : String → SVal
  | arr : List SVal → SVal
  | set : List SVal → SVal
  | obj : List (String × SVal) → SVal

/-- The scalar elements of a list of values (the elements a JS `Set` would
compare by value rather than by reference). -/
def atomsOfS (l : List SVal) : List String :=
  l.filterMap (fun v =>
    match v with
    | SVal.atom s => some s
    | _ => none)

/-- The scalar elements of a list of JSON values. -/
def atomsOfJ (l : List JVal) : List String :=
  l.filterMap (fun v =>
    match v with
    | JVal.atom s => some s
    | _ => none)

/-- The deduplication performed by `new Set(value)` in the reviver: a scalar
element equal to an earlier one is dropped (first occurrence and insertion
order are kept); objects and arrays in a freshly parsed tree are distinct
references and never collapse. -/
def svalDedupGo : List String → List SVal → List SVal
  | _, [] => []
  | seen, SVal.atom s :: vs =>
    if s ∈ seen then svalDedupGo seen vs
    else SVal.atom s :: svalDedupGo (s :: seen) vs
  | seen, v :: vs => v :: svalDedupGo seen vs

/-- `new Set(value)` on an already revived array. -/
def svalDedup (l : List SVal) : List SVal :=
  svalDedupGo [] l

mutual

/-- `utility.ts` `writeSerialized`: `JSON.stringify` with the `set2JSON`
replacer, which turns every `Set` into an array. -/
def writeSerialized : SVal → JVal
  | SVal.atom s => JVal.atom s
  | SVal.arr l => JVal.arr (writeSerializedList l)
  | SVal.set l => JVal.arr (writeSerializedList l)
  | SVal.obj fs => JVal.obj (writeSerializedFields fs)

def writeSerializedList : List SVal → List JVal
  | [] => []
  | v :: vs => writeSerialized v :: writeSerializedList vs

def writeSerializedFields : List (String × SVal) → List (String × JVal)
  | [] => []
  | (k, v) :: fs => (k, writeSerialized v) :: writeSerializedFields fs

end

mutual

/-- `utility.ts` `parseSerialized`: `JSON.parse` with the `JSON2Set` reviver,
which lifts every array to a `Set` (`new Set(value)`, dropping duplicate
scalars) except under the reserved key `trace`, where the array is kept as
is.  The reviver sees each value under the key it is stored at; array
elements are revived under their numeric index keys, none of which is
`trace`, so the model passes the marker key `0` for them (the root key is
the empty string). -/
def parseSerialized : String → JVal → SVal
  | _, JVal.atom s => SVal.atom s
  | key, JVal.arr l =>
    if key = "trace" then SVal.arr (parseSerializedList l)
    else SVal.set (svalDedup (parseSerializedList l))
  | _, JVal.obj fs => SVal.obj (parseSerializedFields fs)

def parseSerializedList : List JVal → List SVal
  | [] => []
  | v :: vs => parseSerialized "0" v :: parseSerializedList vs

def parseSerializedFields : List (String × JVal) → List (String × SVal)
  | [] => []
  | (k, v) :: fs => (k, parseSerialized k v) :: parseSerializedFields fs

end

mutual

/-- A value round-trips when its arrays sit exactly at `trace` keys, its
sets never do (the reviver cannot tell a serialized array from a serialized
set and decides by key alone), and its sets hold no duplicate scalars (a
real JS `Set` cannot, and the reviver would drop them). -/
def roundTrippable : String → SVal → Bool
  | _, SVal.atom _ => true
  | key, SVal.arr l => decide (key = "trace") && roundTrippableList l
  | key, SVal.set l =>
    !decide (key = "trace") && decide (atomsOfS l).Nodup && roundTrippableList l
  | _, SVal.obj fs => roundTrippableFields fs

def roundTrippableList : List SVal → Bool
  | [] => true
  | v :: vs => roundTrippable "0" v && roundTrippableList vs

def roundTrippableFields : List (String × SVal) → Bool
  | [] => true
  | (k, v) :: fs => roundTrippable k v && roundTrippableFields fs

end

mutual

/-- A JSON value survives parsing and re-serialization when every array that
the reviver lifts to a `Set` (any array not under a `trace` key) holds no
duplicate scalars, which `new Set(value)` would drop. -/
def jsonSetSafe : String → JVal → Bool
  | _, JVal.atom _ => true
  | key, JVal.arr l =>
    (decide (key = "trace") || decide (atomsOfJ l).Nodup) && jsonSetSafeList l
  | _, JVal.obj fs => jsonSetSafeFields fs

def jsonSetSafeList : List JVal → Bool
  | [] => true
  | v :: vs => jsonSetSafe "0" v && jsonSetSafeList vs

def jsonSetSafeFields : List (String × JVal) → Bool
  | [] => true
  | (k, v) :: fs => jsonSetSafe k v && jsonSetSafeFields fs

end

/- Trace aligner (the default export of utility.ts).  Costs are JS numbers:
the model is parameterised over a linearly ordered commutative ring (the
rationals and the reals are instances; the concrete examples use the
integers, which the kernel can evaluate), with the JS `Infinity` as the top
element of `WithTop`.  The mutable `maxCost` variable and the `alignState`
cache are threaded through the search as an explicit state record; the
uninitialised `maxCost` of the bootstrap call compares as false against
every finite cost, exactly like the top element, and is modelled as the top
element.  The recursion of the source terminates through the cache cut; the
model carries a fuel counter and returns nothing when it runs out. -/

/-- The three alignment move kinds of the cost function. -/
inductive CostKind where
  | consume
  | modelSkip
  | traceSkip
deriving DecidableEq

/-- types.ts `CostFun`: cost of a move on an event or label. -/
abbrev CostFun (α : Type) := CostKind → String → α

/-- types.ts `Alignment` (primed: the plain name exists in the ambient
library). -/
structure Alignment' (α : Type) where
  cost : WithTop α
  trace : List Event
deriving DecidableEq

/-- The mutable search state of the aligner: the global `maxCost` bound and
the `alignState` cache keyed by remaining trace length and marking key. -/
structure AState (α : Type) where
  maxCost : WithTop α
  cache : List ((ℕ × String) × α)
deriving DecidableEq

/-- Cache lookup (`alignState[traceLen][stateStr]`). -/
def cacheGet {α : Type} (c : List ((ℕ × String) × α)) (k : ℕ × String) : Option α :=
  (c.find? (fun kv => decide (kv.1 = k))).map (fun kv => kv.2)

/-- Cache overwrite; the new entry shadows older ones. -/
def cacheSet {α : Type} (c : List ((ℕ × String) × α)) (k : ℕ × String) (v : α) :
    List ((ℕ × String) × α) :=
  (k, v) :: c

/-- The three in-progress sets threaded through the reachability oracle. -/
structure CycleSets where
  excl : List Event
  exec : List Event
  incl : List Event

mutual

/-- `canBeExecutedRecur` of the reachability oracle.  `origExempt` is the
original query event exempted from the context check in `canBeExecuted`
(`canBeExecutedOrExcluded` duplicates the three functions without the
exemption, modelled by passing none).  The in-progress sets bound the
recursion in the source; the model uses a fuel counter called with a bound
large enough for the three sets over the events of the graph. -/
def cbeExecutedR (g : DCRGraphPP) (m : Marking) (ctx : List Label)
    (origExempt : Option Event) : ℕ → Event → CycleSets → Bool
  | 0, _, _ => false
  | fuel+1, event, cs =>
    let ctxBlocked :=
      match origExempt with
      | some orig => decide (event ≠ orig) && decide (g.labelMap event ∈ ctx)
      | none => decide (g.labelMap event ∈ ctx)
    if ctxBlocked then false
    else if isEnabled event g.toDCRGraph m then true
    else
      let condOk := (g.conditionsFor event).all (fun c =>
        if decide (c ∉ m.executed) && decide (c ∈ m.included) then
          (if c ∈ cs.exec then false
           else cbeExecutedR g m ctx origExempt fuel c { cs with exec := setAdd c cs.exec }) ||
          (if c ∈ cs.excl then false
           else cbeExcludedR g m ctx origExempt fuel c { cs with excl := setAdd c cs.excl })
        else true)
      if !condOk then false
      else
        let milOk := (g.milestonesFor event).all (fun w =>
          if decide (w ∈ m.pending) && decide (w ∈ m.included) then
            (if w ∈ cs.exec then false
             else cbeExecutedR g m ctx origExempt fuel w { cs with exec := setAdd w cs.exec }) ||
            (if w ∈ cs.excl then false
             else cbeExcludedR g m ctx origExempt fuel w { cs with excl := setAdd w cs.excl })
          else true)
        if !milOk then false
        else if event ∉ m.included then
          if event ∈ cs.incl then false
          else cbeIncludedR g m ctx origExempt fuel event { cs with incl := setAdd event cs.incl }
        else true

/-- `canBeExcludedRecur`: some excluder of the event can fire. -/
def cbeExcludedR (g : DCRGraphPP) (m : Marking) (ctx : List Label)
    (origExempt : Option Event) : ℕ → Event → CycleSets → Bool
  | 0, _, _ => false
  | fuel+1, event, cs =>
    (g.excludesFor event).any (fun x =>
      if x ∈ cs.exec then false
      else cbeExecutedR g m ctx origExempt fuel x { cs with exec := setAdd x cs.exec })

/-- `canBeIncludedRecur`: some includer of the event can fire. -/
def cbeIncludedR (g : DCRGraphPP) (m : Marking) (ctx : List Label)
    (origExempt : Option Event) : ℕ → Event → CycleSets → Bool
  | 0, _, _ => false
  | fuel+1, event, cs =>
    (g.includesFor event).any (fun x =>
      if x ∈ cs.exec then false
      else cbeExecutedR g m ctx origExempt fuel x { cs with exec := setAdd x cs.exec })

end

/-- The oracle fuel: one more than the combined capacity of the three
in-progress sets. -/
def oracleFuel (g : DCRGraphPP) : ℕ := 3 * g.events.length + 3

/-- `canBeExecuted (origEvent, graph, context)`. -/
def canBeExecuted (g : DCRGraphPP) (m : Marking) (origEvent : Event)
    (ctx : List Label) : Bool :=
  cbeExecutedR g m ctx (some origEvent) (oracleFuel g) origEvent
    { excl := [], exec := [origEvent], incl := [] }

/-- `canBeExecutedOrExcluded (peEvent, graph, context)`. -/
def canBeExecutedOrExcluded (g : DCRGraphPP) (m : Marking) (peEvent : Event)
    (ctx : List Label) : Bool :=
  cbeExecutedR g m ctx none (oracleFuel g) peEvent
      { excl := [], exec := [peEvent], incl := [] } ||
    cbeExcludedR g m ctx none (oracleFuel g) peEvent
      { excl := [peEvent], exec := [], incl := [] }

/-- The pruning test of `alignTraceLabel`: with a remaining trace some event
of the head label must be reachable; with an empty trace every pending
included event must be executable or excludable. -/
def pruneOk (g : DCRGraphPP) (ctx : List Label) (trace : List Label)
    (m : Marking) : Bool :=
  match trace with
  | l :: _ => (g.labelMapInv l).any (fun e => canBeExecuted g m e ctx)
  | [] => (intersectList m.pending m.included).all
      (fun p => canBeExecutedOrExcluded g m p ctx)

section Aligner

variable {α : Type} [LinearOrderedCommRing α]

/-- The cache cut: a previous visit of this state with a cost not above the
current one. -/
def cacheHit (c : List ((ℕ × String) × α)) (k : ℕ × String) (cur : α) : Bool :=
  match cacheGet c k with
  | some v => decide (v ≤ cur)
  | none => false

/-- The branch loops of `alignTraceLabel` (consume and model-skip): events
kept by the filter are executed on a scratch marking (`newGraphEnv` plus
`execute`, pure in the model), the recursion result is compared against the
best alignment so far, and an improvement tightens the global `maxCost` and
prepends the event. -/
def branchFold (step : Event → AState α → Option (Alignment' α × AState α))
    (keep : Event → Bool) :
    List Event → (Alignment' α × AState α) → Option (Alignment' α × AState α)
  | [], acc => some acc
  | e :: es, acc =>
    if keep e then
      match step e acc.2 with
      | none => none
      | some (al, st2) =>
        branchFold step keep es
          (if al.cost < acc.1.cost then
            ({ cost := al.cost, trace := e :: al.trace },
              { maxCost := al.cost, cache := st2.cache })
          else (acc.1, st2))
    else branchFold step keep es acc

/-- `alignTraceLabel`.  The lookup `labelMapInv[trace[0]]` is total in the
model (in the source a label outside the graph throws).  Order of phases as
in the source: futility and depth cuts, cache cut and write, acceptance,
consume, trace-skip, pruning (only while no finite bound exists), model-skip. -/
def alignTL (g : DCRGraphPP) (ctx : List Label) (cf : CostFun α)
    (toDepth : WithTop α) (pruning : Bool) :
    ℕ → List Label → Marking → α → ℕ → AState α → Option (Alignment' α × AState α)
  | 0, _, _, _, _, _ => none
  | fuel+1, trace, m, curCost, curDepth, st =>
    if st.maxCost ≤ (curCost : WithTop α) then
      some ({ cost := ⊤, trace := [] }, st)
    else if toDepth ≤ ((curDepth : α) : WithTop α) then
      some ({ cost := ⊤, trace := [] }, st)
    else
      let key := (trace.length, stateToStr m)
      if cacheHit st.cache key curCost then some ({ cost := ⊤, trace := [] }, st)
      else
        let st1 : AState α := { maxCost := st.maxCost, cache := cacheSet st.cache key curCost }
        if isAccepting m && trace.isEmpty then
          some ({ cost := curCost, trace := [] }, st1)
        else
          let acc0 : Alignment' α × AState α := ({ cost := ⊤, trace := [] }, st1)
          let consumed :=
            match trace with
            | [] => some acc0
            | l :: rest =>
              branchFold
                (fun e stb => alignTL g ctx cf toDepth pruning fuel rest (execute e g m)
                  (curCost + cf CostKind.consume e) (curDepth + 1) stb)
                (fun e => isEnabled e g.toDCRGraph m)
                (g.labelMapInv l) acc0
          match consumed with
          | none => none
          | some acc1 =>
            let skipped :=
              match trace with
              | [] => some acc1
              | l :: rest =>
                match alignTL g ctx cf toDepth pruning fuel rest m
                    (curCost + cf CostKind.traceSkip l) (curDepth + 1) acc1.2 with
                | none => none
                | some (al, st2) =>
                  some (if al.cost < acc1.1.cost then
                      (al, { maxCost := al.cost, cache := st2.cache })
                    else (acc1.1, st2))
            match skipped with
            | none => none
            | some acc2 =>
              if pruning && decide (acc2.2.maxCost = ⊤) && !(pruneOk g ctx trace m) then
                some ({ cost := ⊤, trace := [] }, acc2.2)
              else
                branchFold
                  (fun e stb => alignTL g ctx cf toDepth pruning fuel trace (execute e g m)
                    (curCost + cf CostKind.modelSkip e) (curDepth + 1) stb)
                  (fun _ => true)
                  (getEnabled g.toDCRGraph m) acc2

/-- The default export: compute the initial bound (the given depth limit, or
the cost of skipping every token plus the cost of aligning the empty trace),
reset the cache, and search. -/
def align (fuel : ℕ) (trace : List Label) (g : DCRGraphPP) (ctx : List Label)
    (cf : CostFun α) (toDepth : WithTop α) (pruning : Bool) : Option (Alignment' α) :=
  let st0 : AState α := { maxCost := ⊤, cache := [] }
  let bound : Option (WithTop α) :=
    if toDepth ≠ ⊤ then some toDepth
    else
      match alignTL g ctx cf toDepth pruning fuel [] g.marking 0 0 st0 with
      | none => none
      | some (a0, _) =>
        some ((((trace.map (fun l => cf CostKind.traceSkip l)).sum : α) : WithTop α) + a0.cost)
  match bound with
  | none => none
  | some b =>
    match alignTL g ctx cf toDepth pruning fuel trace g.marking 0 0
        { maxCost := b, cache := [] } with
    | none => none
    | some (a, _) => some a

/-- The initial upper bound of the claim, recomputed as `align` does for an
infinite depth limit: the trace-skip sum plus the cost of aligning the empty
trace from the initial marking. -/
def alignBound (fuel : ℕ) (trace : List Label) (g : DCRGraphPP) (ctx : List Label)
    (cf : CostFun α) (pruning : Bool) : Option (WithTop α) :=
  match alignTL g ctx cf ⊤ pruning fuel [] g.marking 0 0
      { maxCost := ⊤, cache := [] } with
  | none => none
  | some (a0, _) =>
    some ((((trace.map (fun l => cf CostKind.traceSkip l)).sum : α) : WithTop α) + a0.cost)

/-- The search-state invariant of one `alignTraceLabel` call: the global
bound never grows, a finite result lies between the entry cost and the entry
bound, and a tightened bound comes with a finite result not above it. -/
abbrev StInv (curCost : α) (stEntry : AState α) (p : Alignment' α × AState α) : Prop :=
  p.2.maxCost ≤ stEntry.maxCost ∧
  (p.1.cost ≠ ⊤ → (curCost : WithTop α) ≤ p.1.cost ∧ p.1.cost < stEntry.maxCost) ∧
  (p.2.maxCost < stEntry.maxCost → p.1.cost ≠ ⊤ ∧ p.1.cost ≤ p.2.maxCost)

end Aligner

/-- Unit costs over the integers, used by the bound counterexample. -/
def unitCostFun : CostFun ℤ := fun _ _ => 1

/-- Free consumes, positive skips: a cost function for the bound witness. -/
def consumeFreeCostFun : CostFun ℤ := fun k _ =>
  match k with
  | CostKind.consume => 0
  | _ => 1

/-- A graph whose only event conditions on itself: the marking is accepting
from the start, so the empty alignment is free, but the event can never
fire. -/
def gSelfCond : DCRGraphPP :=
  graphToGraphPP { gBase with conditionsFor := fun e => if e = "a" then ["a"] else [] }

/-- The optimised version of the plain one-event graph. -/
def gBasePP : DCRGraphPP := graphToGraphPP gBase

-- ===== Theorems =====

theorem mem_setAdd {x y : Event} {s : List Event} :
    y ∈ setAdd x s ↔ y = x ∨ y ∈ s := by
  unfold setAdd
  by_cases h : x ∈ s
  · rw [if_pos h]
    exact ⟨Or.inr, fun hh => hh.elim (fun hyx => hyx ▸ h) id⟩
  · rw [if_neg h]
    simp [List.mem_append, or_comm]

theorem mem_setDel {x y : Event} {s : List Event} :
    y ∈ setDel x s ↔ y ∈ s ∧ y ≠ x := by
  unfold setDel
  simp [List.mem_filter]

theorem mem_foldl_setAdd (l : List Event) (s : List Event) (y : Event) :
    y ∈ l.foldl (fun acc r => setAdd r acc) s ↔ y ∈ s ∨ y ∈ l := by
  induction l generalizing s with
  | nil => simp
  | cons a t ih =>
    rw [List.foldl_cons, ih]
    rw [mem_setAdd]
    simp [List.mem_cons]
    tauto

theorem mem_foldl_setDel (l : List Event) (s : List Event) (y : Event) :
    y ∈ l.foldl (fun acc r => setDel r acc) s ↔ y ∈ s ∧ y ∉ l := by
  induction l generalizing s with
  | nil => simp
  | cons a t ih =>
    rw [List.foldl_cons, ih]
    rw [mem_setDel]
    simp [List.mem_cons]
    tauto

theorem mem_listUnion {a b : List Event} {y : Event} :
    y ∈ listUnion a b ↔ y ∈ a ∨ y ∈ b :=
  mem_foldl_setAdd b a y

theorem mem_unionMapped_aux (keys : List Event) (f : Event → List Event)
    (s : List Event) (y : Event) :
    y ∈ keys.foldl (fun acc k => listUnion acc (f k)) s ↔
      y ∈ s ∨ ∃ k ∈ keys, y ∈ f k := by
  induction keys generalizing s with
  | nil => simp
  | cons a t ih =>
    rw [List.foldl_cons, ih]
    rw [mem_listUnion]
    constructor
    · rintro ((hs | hf) | ⟨k, hk, hyk⟩)
      · exact Or.inl hs
      · exact Or.inr ⟨a, List.mem_cons_self a t, hf⟩
      · exact Or.inr ⟨k, List.mem_cons_of_mem a hk, hyk⟩
    · rintro (hs | ⟨k, hk, hyk⟩)
      · exact Or.inl (Or.inl hs)
      · rcases List.mem_cons.mp hk with rfl | hkt
        · exact Or.inl (Or.inr hyk)
        · exact Or.inr ⟨k, hkt, hyk⟩

theorem mem_unionMapped {keys : List Event} {f : Event → List Event} {y : Event} :
    y ∈ unionMapped keys f ↔ ∃ k ∈ keys, y ∈ f k := by
  unfold unionMapped
  rw [mem_unionMapped_aux]
  simp

theorem mem_execute_executed {e x : Event} {g : DCRGraphPP} {m : Marking} :
    x ∈ (execute e g m).executed ↔ (e ∈ g.conditions ∧ x = e) ∨ x ∈ m.executed := by
  unfold execute
  by_cases h : e ∈ g.conditions
  · simp only [if_pos h, mem_setAdd]
    tauto
  · simp only [if_neg h]
    tauto

theorem mem_execute_pending {e x : Event} {g : DCRGraphPP} {m : Marking} :
    x ∈ (execute e g m).pending ↔ (x ∈ m.pending ∧ x ≠ e) ∨ x ∈ g.responseTo e := by
  unfold execute
  rw [mem_foldl_setAdd, mem_setDel]

theorem mem_execute_included {e x : Event} {g : DCRGraphPP} {m : Marking} :
    x ∈ (execute e g m).included ↔
      (x ∈ m.included ∧ x ∉ g.excludesTo e) ∨ x ∈ g.includesTo e := by
  unfold execute
  rw [mem_foldl_setAdd, mem_foldl_setDel]

/-- Claim C1: `graphToGraphPP` sets `conditions` to the union over all events
of `conditionsFor`, and `execute` on the optimised graph adds the fired event
to `executed` exactly when it belongs to that union (events already executed
stay executed). -/
theorem graphToGraphPP_conditions_is_union (g : DCRGraph) (e x : Event) (m : Marking) :
    (x ∈ (graphToGraphPP g).conditions ↔ ∃ k ∈ g.events, x ∈ g.conditionsFor k) ∧
    (e ∈ (execute e (graphToGraphPP g) m).executed ↔
      (∃ k ∈ g.events, e ∈ g.conditionsFor k) ∨ e ∈ m.executed) := by
  constructor
  · exact mem_unionMapped
  · have hc : e ∈ (graphToGraphPP g).conditions ↔ ∃ k ∈ g.events, e ∈ g.conditionsFor k :=
      mem_unionMapped
    rw [mem_execute_executed, hc]
    simp

/-- Claim C2 counterexample: with the self-response `a •→ a`, after
`execute(a, g)` the event `a` is again pending, so the claimed conjunction
(`e ∉ pending` with no side condition) is false. -/
theorem execute_self_response_counterexample :
    ¬ (("a" ∉ (execute "a" gSelfResponse gSelfResponse.marking).pending) ∧
        ∀ r ∈ gSelfResponse.responseTo "a",
          r ∈ (execute "a" gSelfResponse gSelfResponse.marking).pending) := by
  decide

/-- Claim C2 (amended): after `execute(e, g)` every response target of `e` is
pending, and `e` itself is not pending provided `e` is not its own response
target (the delete of `e` precedes the response loop, so a self-response is
re-added). -/
theorem execute_response_pending (g : DCRGraphPP) (m : Marking) (e : Event)
    (h : e ∉ g.responseTo e) :
    e ∉ (execute e g m).pending ∧
      ∀ r ∈ g.responseTo e, r ∈ (execute e g m).pending := by
  constructor
  · rw [mem_execute_pending]
    rintro (⟨_, hne⟩ | hr)
    · exact hne rfl
    · exact h hr
  · intro r hr
    rw [mem_execute_pending]
    exact Or.inr hr

theorem execute_response_pending_witness :
    "a" ∉ (execute "a" gSelfExclIncl gSelfExclIncl.marking).pending ∧
      ∀ r ∈ gSelfExclIncl.responseTo "a",
        r ∈ (execute "a" gSelfExclIncl gSelfExclIncl.marking).pending :=
  execute_response_pending gSelfExclIncl gSelfExclIncl.marking "a" (by decide)

/-- Claim C3 counterexample: `newGraphEnv` contains no try/finally, so when
the closure raises, the restoring assignment is skipped and the marking stays
the dirtied scratch copy instead of the pre-call value. -/
theorem newGraphEnv_error_counterexample :
    (newGraphEnv mEmpty throwingClosure).2 ≠ mEmpty := by
  decide

/-- Claim C3 (amended): `newGraphEnv` restores the exact pre-call marking and
passes the closure result through whenever the closure returns normally
(including early returns); on a raised error the scratch marking escapes. -/
theorem newGraphEnv_restores_on_ok {T E : Type} (m : Marking)
    (fn : Marking → Except E T × Marking) (v : T)
    (h : (fn (copyMarking m)).1 = Except.ok v) :
    (newGraphEnv m fn).2 = m ∧ (newGraphEnv m fn).1 = Except.ok v := by
  simp [newGraphEnv, h]

theorem newGraphEnv_restores_on_ok_witness :
    (newGraphEnv mEmpty okClosure).2 = mEmpty ∧
      (newGraphEnv mEmpty okClosure).1 = Except.ok true :=
  newGraphEnv_restores_on_ok mEmpty okClosure true rfl

/-- Claim C4: after `execute(e, g)` every event excluded by `e` and not
included by `e` is out of `included`, every event included by `e` is in
`included`, and in the self-effecting case the include step (being last)
wins. -/
theorem execute_excludes_includes (g : DCRGraphPP) (m : Marking) (e : Event) :
    (∀ x ∈ g.excludesTo e, x ∉ g.includesTo e → x ∉ (execute e g m).included) ∧
    (∀ i ∈ g.includesTo e, i ∈ (execute e g m).included) ∧
    (e ∈ g.excludesTo e → e ∈ g.includesTo e → e ∈ (execute e g m).included) := by
  refine ⟨?_, ?_, ?_⟩
  · intro x hx hnx hmem
    rw [mem_execute_included] at hmem
    rcases hmem with ⟨_, hni⟩ | hi
    · exact hni hx
    · exact hnx hi
  · intro i hi
    rw [mem_execute_included]
    exact Or.inr hi
  · intro _ hi
    rw [mem_execute_included]
    exact Or.inr hi

theorem execute_excludes_includes_witness :
    "a" ∈ (execute "a" gSelfExclIncl gSelfExclIncl.marking).included :=
  (execute_excludes_includes gSelfExclIncl gSelfExclIncl.marking "a").2.2
    (by decide) (by decide)

/-- Claim C5: under the well-formedness precondition (marking components and
relation targets drawn from `events`, and `e ∈ events`), `execute` keeps all
three marking components inside `events`. -/
theorem execute_preserves_marking_subsets (g : DCRGraphPP) (m : Marking) (e : Event)
    (he : e ∈ g.events)
    (hex : ∀ x ∈ m.executed, x ∈ g.events)
    (hin : ∀ x ∈ m.included, x ∈ g.events)
    (hpe : ∀ x ∈ m.pending, x ∈ g.events)
    (hresp : ∀ x ∈ g.responseTo e, x ∈ g.events)
    (hincl : ∀ x ∈ g.includesTo e, x ∈ g.events) :
    (∀ x ∈ (execute e g m).executed, x ∈ g.events) ∧
    (∀ x ∈ (execute e g m).included, x ∈ g.events) ∧
    (∀ x ∈ (execute e g m).pending, x ∈ g.events) := by
  refine ⟨?_, ?_, ?_⟩
  · intro x hx
    rw [mem_execute_executed] at hx
    rcases hx with ⟨_, rfl⟩ | hx
    · exact he
    · exact hex x hx
  · intro x hx
    rw [mem_execute_included] at hx
    rcases hx with ⟨hx, _⟩ | hx
    · exact hin x hx
    · exact hincl x hx
  · intro x hx
    rw [mem_execute_pending] at hx
    rcases hx with ⟨hx, _⟩ | hx
    · exact hpe x hx
    · exact hresp x hx

theorem execute_preserves_marking_subsets_witness :
    (∀ x ∈ (execute "a" gSelfExclIncl gSelfExclIncl.marking).executed,
        x ∈ gSelfExclIncl.events) ∧
    (∀ x ∈ (execute "a" gSelfExclIncl gSelfExclIncl.marking).included,
        x ∈ gSelfExclIncl.events) ∧
    (∀ x ∈ (execute "a" gSelfExclIncl gSelfExclIncl.marking).pending,
        x ∈ gSelfExclIncl.events) :=
  execute_preserves_marking_subsets gSelfExclIncl gSelfExclIncl.marking "a"
    (by decide) (by decide) (by decide) (by decide) (by decide) (by decide)

theorem isEnabled_iff {e : Event} {g : DCRGraph} {m : Marking} :
    isEnabled e g m = true ↔
      e ∈ m.included ∧
      (∀ c ∈ g.conditionsFor e, c ∈ m.included → c ∈ m.executed) ∧
      (∀ w ∈ g.milestonesFor e, w ∈ m.included → w ∉ m.pending) := by
  simp [isEnabled, List.all_eq_true]
  constructor
  · rintro ⟨⟨h1, h2⟩, h3⟩
    refine ⟨h1, fun c hc hci => ?_, fun w hw hwi hwp => ?_⟩
    · exact (h2 c hc).resolve_left (not_not_intro hci)
    · exact (h3 w hw).elim (fun hh => hh hwi) (fun hh => hh hwp)
  · rintro ⟨h1, h2, h3⟩
    refine ⟨⟨h1, fun c hc => ?_⟩, fun w hw => ?_⟩
    · exact or_iff_not_imp_left.mpr (fun hci => h2 c hc (not_not.mp hci))
    · exact or_iff_not_imp_left.mpr (fun hwi => h3 w hw (not_not.mp hwi))

theorem mem_condViolList {g : DCRGraphS} {m : Marking} {e c : Event} :
    c ∈ condViolList g m e ↔
      c ∈ g.conditionsFor e ∧ c ∉ m.executed ∧ c ∈ m.included := by
  simp [condViolList, differenceList, List.mem_filter]
  tauto

theorem mem_milViolList {g : DCRGraphS} {m : Marking} {e w : Event} :
    w ∈ milViolList g m e ↔
      w ∈ g.milestonesFor e ∧ w ∈ m.pending ∧ w ∈ m.included := by
  simp [milViolList, intersectList, List.mem_filter]
  tauto

theorem localCount_zero_of_enabled {g : DCRGraphS} {exF : Event → List Event}
    {m : Marking} {exIn : Event → List Event} {e : Event}
    (h : isEnabledS e g m = true) :
    localViolationCount g exF m exIn e = 0 := by
  rw [isEnabledS, isEnabled_iff] at h
  obtain ⟨h1, h2, h3⟩ := h
  have hc : condViolList g m e = [] := by
    rw [List.eq_nil_iff_forall_not_mem]
    intro c hcmem
    rw [mem_condViolList] at hcmem
    exact hcmem.2.1 (h2 c hcmem.1 hcmem.2.2)
  have hm : milViolList g m e = [] := by
    rw [List.eq_nil_iff_forall_not_mem]
    intro w hwmem
    rw [mem_milViolList] at hwmem
    exact h3 w hwmem.1 hwmem.2.2 hwmem.2.1
  have hx : exclViolList exF m exIn e = [] := by
    rw [exclViolList, if_pos h1]
  rw [localViolationCount, hc, hm, hx]
  rfl

theorem endOfTraceTotal_zero {rspF : Event → List Event} {m : Marking}
    {exEx : Event → List Event} (h : isAccepting m = true) :
    endOfTraceTotal rspF m exEx = 0 := by
  have hnil : intersectList m.pending m.included = [] := by
    rwa [isAccepting, List.isEmpty_iff] at h
  rw [endOfTraceTotal, hnil]
  rfl

theorem pickBest_totalViolations_le (best : QuantRes) (lc : ℕ)
    (lv la : RelationViolations) (q : QuantRes) :
    (pickBest best lc lv la q).totalViolations ≤ best.totalViolations := by
  rw [pickBest]
  split
  · exact le_of_lt (by assumption)
  · exact le_rfl

theorem pickBest_totalViolations_le_branch (best : QuantRes) (lc : ℕ)
    (lv la : RelationViolations) (q : QuantRes) :
    (pickBest best lc lv la q).totalViolations ≤ (lc : ℕ∞) + q.totalViolations := by
  rw [pickBest]
  split
  · exact le_rfl
  · exact le_of_not_lt (by assumption)

theorem quantifyFold_ok (g : DCRGraphS) (exF : Event → List Event)
    (head : RoleTraceEntry) (m : Marking) (exIn exEx : Event → List Event)
    (recTail : Marking → (Event → List Event) → (Event → List Event) → Except Unit QuantRes)
    (hok : ∀ m2 a b, ∃ q, recTail m2 a b = Except.ok q) :
    ∀ (l : List Event) (best : QuantRes),
      ∃ q, quantifyFold g exF head m exIn exEx recTail l best = Except.ok q := by
  intro l
  induction l with
  | nil => intro best; exact ⟨best, rfl⟩
  | cons e rest ih =>
    intro best
    simp only [quantifyFold]
    by_cases hrole : head.role = g.roleMap e
    · rw [if_pos hrole]
      obtain ⟨q, hq⟩ := hok (executeS e g m) (updExSinceIn g e exIn) (updExSinceEx g e exEx)
      rw [hq]
      exact ih _
    · rw [if_neg hrole]
      exact ih best

theorem quantifyFold_le_best (g : DCRGraphS) (exF : Event → List Event)
    (head : RoleTraceEntry) (m : Marking) (exIn exEx : Event → List Event)
    (recTail : Marking → (Event → List Event) → (Event → List Event) → Except Unit QuantRes) :
    ∀ (l : List Event) (best : QuantRes) (q : QuantRes),
      quantifyFold g exF head m exIn exEx recTail l best = Except.ok q →
      q.totalViolations ≤ best.totalViolations := by
  intro l
  induction l with
  | nil =>
    intro best q h
    simp only [quantifyFold] at h
    injection h with h2
    subst h2
    exact le_rfl
  | cons e rest ih =>
    intro best q h
    simp only [quantifyFold] at h
    split at h
    · split at h
      · exact absurd h (by simp)
      · exact le_trans (ih _ q h) (pickBest_totalViolations_le best _ _ _ _)
    · exact ih best q h

theorem quantifyFold_le_branch (g : DCRGraphS) (exF : Event → List Event)
    (head : RoleTraceEntry) (m : Marking) (exIn exEx : Event → List Event)
    (recTail : Marking → (Event → List Event) → (Event → List Event) → Except Unit QuantRes) :
    ∀ (l : List Event) (best : QuantRes) (q : QuantRes) (e : Event),
      e ∈ l → head.role = g.roleMap e →
      ∀ q0, recTail (executeS e g m) (updExSinceIn g e exIn) (updExSinceEx g e exEx) =
          Except.ok q0 →
        quantifyFold g exF head m exIn exEx recTail l best = Except.ok q →
        q.totalViolations ≤ (localViolationCount g exF m exIn e : ℕ∞) + q0.totalViolations := by
  intro l
  induction l with
  | nil => intro best q e he; cases he
  | cons a rest ih =>
    intro best q e he hrole q0 hq0 h
    simp only [quantifyFold] at h
    rcases List.mem_cons.mp he with rfl | hin
    · rw [if_pos hrole] at h
      split at h
      · rename_i u heq
        rw [hq0] at heq
        exact absurd heq (by simp)
      · rename_i qa heq
        rw [hq0] at heq
        injection heq with heq2
        subst heq2
        exact le_trans (quantifyFold_le_best g exF head m exIn exEx recTail rest _ q h)
          (pickBest_totalViolations_le_branch best _ _ _ _)
    · by_cases hra : head.role = g.roleMap a
      · rw [if_pos hra] at h
        split at h
        · exact absurd h (by simp)
        · exact ih _ q e hin hrole q0 hq0 h
      · rw [if_neg hra] at h
        exact ih best q e hin hrole q0 hq0 h

theorem quantifyFold_skip_all (g : DCRGraphS) (exF : Event → List Event)
    (head : RoleTraceEntry) (m : Marking) (exIn exEx : Event → List Event)
    (recTail : Marking → (Event → List Event) → (Event → List Event) → Except Unit QuantRes) :
    ∀ (l : List Event) (best : QuantRes), (∀ e ∈ l, ¬ head.role = g.roleMap e) →
      quantifyFold g exF head m exIn exEx recTail l best = Except.ok best := by
  intro l
  induction l with
  | nil => intro best _; rfl
  | cons a rest ih =>
    intro best hall
    simp only [quantifyFold]
    rw [if_neg (hall a (List.mem_cons_self a rest))]
    exact ih best (fun e he => hall e (List.mem_cons_of_mem a he))

theorem quantifyRec_ok (g : DCRGraphS) (exF rspF : Event → List Event) :
    ∀ (t : RoleTrace), (∀ en ∈ t, en.activity ∈ g.labels) →
      ∀ m exIn exEx, ∃ q, quantifyRec g exF rspF t m exIn exEx = Except.ok q := by
  intro t
  induction t with
  | nil => intro _ m exIn exEx; exact ⟨_, rfl⟩
  | cons head tail ih =>
    intro hlab m exIn exEx
    simp only [quantifyRec]
    rw [if_pos (hlab head (List.mem_cons_self head tail))]
    exact quantifyFold_ok g exF head m exIn exEx
      (fun m2 a b => quantifyRec g exF rspF tail m2 a b)
      (fun m2 a b => ih (fun en hen => hlab en (List.mem_cons_of_mem head hen)) m2 a b)
      (g.labelMapInv head.activity) initBestQuant

theorem quantifyRec_zero_of_replay (g : DCRGraphS) (exF rspF : Event → List Event) :
    ∀ (t : RoleTrace), (∀ en ∈ t, en.activity ∈ g.labels) →
      ∀ m exIn exEx, replayTraceS g t m = true →
        ∃ q, quantifyRec g exF rspF t m exIn exEx = Except.ok q ∧
          q.totalViolations = 0 := by
  intro t
  induction t with
  | nil =>
    intro _ m exIn exEx hrep
    simp only [replayTraceS, isAcceptingS] at hrep
    refine ⟨_, rfl, ?_⟩
    have h0 : endOfTraceTotal rspF m exEx = 0 := endOfTraceTotal_zero hrep
    simp [endOfTraceRes, h0]
  | cons head tail ih =>
    intro hlab m exIn exEx hrep
    have hl : head.activity ∈ g.labels := hlab head (List.mem_cons_self head tail)
    simp only [replayTraceS] at hrep
    rw [if_pos hl, List.any_eq_true] at hrep
    obtain ⟨e, he, hb⟩ := hrep
    rw [Bool.and_eq_true, Bool.and_eq_true] at hb
    obtain ⟨⟨hrole, hen⟩, hreptail⟩ := hb
    rw [decide_eq_true_eq] at hrole
    have hlabtail : ∀ en ∈ tail, en.activity ∈ g.labels :=
      fun en hen2 => hlab en (List.mem_cons_of_mem head hen2)
    obtain ⟨q0, hq0, hq0z⟩ :=
      ih hlabtail (executeS e g m) (updExSinceIn g e exIn) (updExSinceEx g e exEx) hreptail
    obtain ⟨q, hq⟩ := quantifyFold_ok g exF head m exIn exEx
      (fun m2 a b => quantifyRec g exF rspF tail m2 a b)
      (quantifyRec_ok g exF rspF tail hlabtail)
      (g.labelMapInv head.activity) initBestQuant
    refine ⟨q, ?_, ?_⟩
    · simp only [quantifyRec]
      rw [if_pos hl]
      exact hq
    · have hle := quantifyFold_le_branch g exF head m exIn exEx
        (fun m2 a b => quantifyRec g exF rspF tail m2 a b)
        (g.labelMapInv head.activity) initBestQuant q e he hrole q0 hq0 hq
      rw [localCount_zero_of_enabled hen, hq0z] at hle
      simpa using hle

/-- Claim C6 counterexample: the open-world skip exists only in the replay.
On the activity `X`, which is not a label of the graph, `replayTraceS` skips
the token and accepts, while `quantifyViolations` dereferences
`labelMapInv[X]` as `undefined` and throws instead of returning a zero
violation count. -/
theorem replay_quantify_counterexample :
    replayTraceS gS [⟨"r", "X"⟩] gS.marking = true ∧
      quantifyViolations gS [⟨"r", "X"⟩] = Except.error () :=
  ⟨by decide, rfl⟩

/-- Claim C6 (amended): for every role trace all of whose activities are
labels of the graph, acceptance by `replayTrace` implies that
`quantifyViolations` returns normally with `totalViolations = 0`. -/
theorem replay_accepts_quantify_zero (g : DCRGraphS) (t : RoleTrace)
    (hlab : ∀ en ∈ t, en.activity ∈ g.labels)
    (hrep : replayTraceS g t g.marking = true) :
    ∃ q, quantifyViolations g t = Except.ok q ∧ q.totalViolations = 0 :=
  quantifyRec_zero_of_replay g (reverseRelation g.events g.excludesTo)
    (reverseRelation g.events g.responseTo) t hlab g.marking emptyMap emptyMap hrep

theorem replay_accepts_quantify_zero_witness :
    ∃ q, quantifyViolations gS [⟨"r", "A"⟩] = Except.ok q ∧ q.totalViolations = 0 :=
  replay_accepts_quantify_zero gS [⟨"r", "A"⟩] (by decide) (by decide)

/-- Claim C10: when the first entry of the trace has an activity that is a
label of the graph but no event carries both that label and that role, the
candidate loop is skipped entirely (the tail is never visited), and
`quantifyViolations` returns normally with the initial
`leastViolations = Infinity`. -/
theorem quantify_unmatched_infinite (g : DCRGraphS) (head : RoleTraceEntry)
    (rest : RoleTrace) (hl : head.activity ∈ g.labels)
    (hrole : ∀ e ∈ g.labelMapInv head.activity, ¬ head.role = g.roleMap e) :
    ∃ q, quantifyViolations g (head :: rest) = Except.ok q ∧ q.totalViolations = ⊤ := by
  refine ⟨initBestQuant, ?_, rfl⟩
  simp only [quantifyViolations, quantifyRec]
  rw [if_pos hl]
  exact quantifyFold_skip_all g (reverseRelation g.events g.excludesTo) head
    g.marking emptyMap emptyMap
    (fun m2 a b => quantifyRec g (reverseRelation g.events g.excludesTo)
      (reverseRelation g.events g.responseTo) rest m2 a b)
    (g.labelMapInv head.activity) initBestQuant hrole

theorem quantify_unmatched_infinite_witness :
    ∃ q, quantifyViolations gS [⟨"s", "A"⟩, ⟨"q", "Z"⟩] = Except.ok q ∧
      q.totalViolations = ⊤ :=
  quantify_unmatched_infinite gS ⟨"s", "A"⟩ [⟨"q", "Z"⟩] (by decide) (by decide)

theorem mem_insertSorted {x y : Event} {l : List Event} :
    y ∈ insertSorted x l ↔ y = x ∨ y ∈ l := by
  induction l with
  | nil => simp [insertSorted]
  | cons a t ih =>
    simp only [insertSorted]
    split
    · simp [List.mem_cons]
    · simp only [List.mem_cons, ih]
      tauto

theorem mem_sortStrs {y : Event} {l : List Event} :
    y ∈ sortStrs l ↔ y ∈ l := by
  induction l with
  | nil => simp [sortStrs]
  | cons a t ih => simp [sortStrs, mem_insertSorted, ih]

theorem mem_commaJoinCh : ∀ (ll : List (List Char)) (c : Char),
    c ∈ commaJoinCh ll → c = ',' ∨ ∃ p ∈ ll, c ∈ p := by
  intro ll
  induction ll with
  | nil => intro c h; simp [commaJoinCh] at h
  | cons x rest ih =>
    intro c h
    cases rest with
    | nil =>
      simp only [commaJoinCh] at h
      exact Or.inr ⟨x, List.mem_cons_self x [], h⟩
    | cons y ys =>
      simp only [commaJoinCh] at h
      rcases List.mem_append.mp h with hx | hcons
      · exact Or.inr ⟨x, List.mem_cons_self _ _, hx⟩
      · rcases List.mem_cons.mp hcons with rfl | hrest
        · exact Or.inl rfl
        · rcases ih c hrest with hc | ⟨p, hp, hcp⟩
          · exact Or.inl hc
          · exact Or.inr ⟨p, List.mem_cons_of_mem x hp, hcp⟩

theorem splitSep {c : Char} : ∀ (a1 a2 r1 r2 : List Char), c ∉ a1 → c ∉ a2 →
    a1 ++ c :: r1 = a2 ++ c :: r2 → a1 = a2 ∧ r1 = r2 := by
  intro a1
  induction a1 with
  | nil =>
    intro a2 r1 r2 _ h2 heq
    cases a2 with
    | nil => simpa using heq
    | cons b bs =>
      simp only [List.nil_append, List.cons_append] at heq
      injection heq with hcb _
      exact absurd (by rw [hcb]; exact List.mem_cons_self b bs) h2
  | cons a as ih =>
    intro a2 r1 r2 h1 h2 heq
    cases a2 with
    | nil =>
      simp only [List.nil_append, List.cons_append] at heq
      injection heq with hac _
      exact absurd (by rw [← hac]; exact List.mem_cons_self a as) h1
    | cons b bs =>
      simp only [List.cons_append] at heq
      injection heq with hab htail
      subst hab
      obtain ⟨ht1, ht2⟩ := ih bs r1 r2 (fun hc => h1 (List.mem_cons_of_mem a hc))
        (fun hc => h2 (List.mem_cons_of_mem a hc)) htail
      exact ⟨by rw [ht1], ht2⟩

theorem commaJoinCh_inj : ∀ (l1 l2 : List (List Char)),
    (∀ p ∈ l1, p ≠ [] ∧ ',' ∉ p) → (∀ p ∈ l2, p ≠ [] ∧ ',' ∉ p) →
    commaJoinCh l1 = commaJoinCh l2 → l1 = l2 := by
  intro l1
  induction l1 with
  | nil =>
    intro l2 _ h2 heq
    cases l2 with
    | nil => rfl
    | cons y ys =>
      exfalso
      cases ys with
      | nil =>
        simp only [commaJoinCh] at heq
        exact (h2 y (List.mem_cons_self y [])).1 heq.symm
      | cons z zs =>
        simp only [commaJoinCh] at heq
        have hlen := congrArg List.length heq
        simp at hlen
        omega
  | cons x xs ih =>
    intro l2 h1 h2 heq
    cases l2 with
    | nil =>
      exfalso
      cases xs with
      | nil =>
        simp only [commaJoinCh] at heq
        exact (h1 x (List.mem_cons_self x [])).1 heq
      | cons w ws =>
        simp only [commaJoinCh] at heq
        have hlen := congrArg List.length heq
        simp at hlen
    | cons y ys =>
      cases xs with
      | nil =>
        cases ys with
        | nil =>
          simp only [commaJoinCh] at heq
          rw [heq]
        | cons z zs =>
          exfalso
          simp only [commaJoinCh] at heq
          have hc : ',' ∈ x := by
            rw [heq]
            exact List.mem_append_right y (List.mem_cons_self ',' _)
          exact (h1 x (List.mem_cons_self x [])).2 hc
      | cons w ws =>
        cases ys with
        | nil =>
          exfalso
          simp only [commaJoinCh] at heq
          have hc : ',' ∈ y := by
            rw [← heq]
            exact List.mem_append_right x (List.mem_cons_self ',' _)
          exact (h2 y (List.mem_cons_self y [])).2 hc
        | cons z zs =>
          simp only [commaJoinCh] at heq
          obtain ⟨hxy, hrest⟩ := splitSep x y _ _ (h1 x (List.mem_cons_self _ _)).2
            (h2 y (List.mem_cons_self _ _)).2 heq
          subst hxy
          have htl := ih (z :: zs) (fun p hp => h1 p (List.mem_cons_of_mem x hp))
            (fun p hp => h2 p (List.mem_cons_of_mem x hp)) hrest
          rw [htl]

theorem data_ne_nil_of_ne_empty {s : String} (h : s ≠ "") : s.data ≠ [] := by
  cases s with
  | mk d =>
    intro hd
    simp only [String.data] at hd
    subst hd
    exact h rfl

theorem semi_not_mem_sectionCh {l : List Event}
    (h : ∀ s ∈ l, ';' ∉ s.data) : ';' ∉ sectionCh l := by
  intro hmem
  rcases mem_commaJoinCh _ _ hmem with hc | ⟨p, hp, hcp⟩
  · exact absurd hc (by decide)
  · rw [List.mem_map] at hp
    obtain ⟨s, hs, rfl⟩ := hp
    exact h s (mem_sortStrs.mp hs) hcp

theorem sectionCh_inj {l1 l2 : List Event}
    (h1 : ∀ s ∈ l1, s ≠ "" ∧ ',' ∉ s.data)
    (h2 : ∀ s ∈ l2, s ≠ "" ∧ ',' ∉ s.data)
    (heq : sectionCh l1 = sectionCh l2) :
    ∀ x, x ∈ l1 ↔ x ∈ l2 := by
  have hmap := commaJoinCh_inj ((sortStrs l1).map String.data) ((sortStrs l2).map String.data)
    ?_ ?_ heq
  · have hinj : Function.Injective String.data := fun a b hab => String.ext hab
    have hsort : sortStrs l1 = sortStrs l2 := (List.map_injective_iff.mpr hinj) hmap
    intro x
    rw [← mem_sortStrs (l := l1), ← mem_sortStrs (l := l2), hsort]
  · intro p hp
    rw [List.mem_map] at hp
    obtain ⟨s, hs, rfl⟩ := hp
    obtain ⟨hne, hcm⟩ := h1 s (mem_sortStrs.mp hs)
    exact ⟨data_ne_nil_of_ne_empty hne, hcm⟩
  · intro p hp
    rw [List.mem_map] at hp
    obtain ⟨s, hs, rfl⟩ := hp
    obtain ⟨hne, hcm⟩ := h2 s (mem_sortStrs.mp hs)
    exact ⟨data_ne_nil_of_ne_empty hne, hcm⟩

/-- Claim C8 counterexample: event ids are arbitrary strings, and the comma
used by the join collides with a comma inside an id, so two different
marking triples map to the same key `a,b;;;`. -/
theorem stateToStr_collision_counterexample :
    stateToStr { executed := ["a,b"], included := [], pending := [] } =
        stateToStr { executed := ["a", "b"], included := [], pending := [] } ∧
      "a" ∈ (["a", "b"] : List Event) ∧ "a" ∉ (["a,b"] : List Event) := by
  decide

/-- Claim C8 (amended): `stateToStr` is canonical and unambiguous on markings
whose event ids are nonempty and contain neither the comma used by the join
nor the semicolon used as the section separator: equal keys imply equal set
triples. -/
theorem stateToStr_inj_on_safe (m1 m2 : Marking)
    (h1e : ∀ x ∈ m1.executed, x ≠ "" ∧ ',' ∉ x.data ∧ ';' ∉ x.data)
    (h1i : ∀ x ∈ m1.included, x ≠ "" ∧ ',' ∉ x.data ∧ ';' ∉ x.data)
    (h1p : ∀ x ∈ m1.pending, x ≠ "" ∧ ',' ∉ x.data ∧ ';' ∉ x.data)
    (h2e : ∀ x ∈ m2.executed, x ≠ "" ∧ ',' ∉ x.data ∧ ';' ∉ x.data)
    (h2i : ∀ x ∈ m2.included, x ≠ "" ∧ ',' ∉ x.data ∧ ';' ∉ x.data)
    (h2p : ∀ x ∈ m2.pending, x ≠ "" ∧ ',' ∉ x.data ∧ ';' ∉ x.data)
    (heq : stateToStr m1 = stateToStr m2) :
    (∀ x, x ∈ m1.executed ↔ x ∈ m2.executed) ∧
    (∀ x, x ∈ m1.included ↔ x ∈ m2.included) ∧
    (∀ x, x ∈ m1.pending ↔ x ∈ m2.pending) := by
  have hch : sectionCh m1.executed ++ ';' ::
      (sectionCh m1.included ++ ';' :: (sectionCh m1.pending ++ [';'])) =
        sectionCh m2.executed ++ ';' ::
      (sectionCh m2.included ++ ';' :: (sectionCh m2.pending ++ [';'])) := by
    have hdata := congrArg String.data heq
    simpa [stateToStr] using hdata
  obtain ⟨hex, hrest⟩ := splitSep _ _ _ _
    (semi_not_mem_sectionCh (fun s hs => (h1e s hs).2.2))
    (semi_not_mem_sectionCh (fun s hs => (h2e s hs).2.2)) hch
  obtain ⟨hin, hrest2⟩ := splitSep _ _ _ _
    (semi_not_mem_sectionCh (fun s hs => (h1i s hs).2.2))
    (semi_not_mem_sectionCh (fun s hs => (h2i s hs).2.2)) hrest
  obtain ⟨hpe, -⟩ := splitSep _ _ [] []
    (semi_not_mem_sectionCh (fun s hs => (h1p s hs).2.2))
    (semi_not_mem_sectionCh (fun s hs => (h2p s hs).2.2)) hrest2
  exact ⟨sectionCh_inj (fun s hs => ⟨(h1e s hs).1, (h1e s hs).2.1⟩)
      (fun s hs => ⟨(h2e s hs).1, (h2e s hs).2.1⟩) hex,
    sectionCh_inj (fun s hs => ⟨(h1i s hs).1, (h1i s hs).2.1⟩)
      (fun s hs => ⟨(h2i s hs).1, (h2i s hs).2.1⟩) hin,
    sectionCh_inj (fun s hs => ⟨(h1p s hs).1, (h1p s hs).2.1⟩)
      (fun s hs => ⟨(h2p s hs).1, (h2p s hs).2.1⟩) hpe⟩

theorem stateToStr_inj_on_safe_witness :
    (∀ x, x ∈ (["b", "a"] : List Event) ↔ x ∈ (["a", "b"] : List Event)) ∧
    (∀ x, x ∈ (["c"] : List Event) ↔ x ∈ (["c"] : List Event)) ∧
    (∀ x, x ∈ ([] : List Event) ↔ x ∈ ([] : List Event)) :=
  stateToStr_inj_on_safe
    { executed := ["b", "a"], included := ["c"], pending := [] }
    { executed := ["a", "b"], included := ["c"], pending := [] }
    (by decide) (by decide) (by decide) (by decide) (by decide) (by decide)
    (by decide)

theorem atomsOfS_atom_cons (s : String) (vs : List SVal) :
    atomsOfS (SVal.atom s :: vs) = s :: atomsOfS vs := by
  simp [atomsOfS]

theorem atomsOfS_arr_cons (l2 : List SVal) (vs : List SVal) :
    atomsOfS (SVal.arr l2 :: vs) = atomsOfS vs := by
  simp [atomsOfS]

theorem atomsOfS_set_cons (l2 : List SVal) (vs : List SVal) :
    atomsOfS (SVal.set l2 :: vs) = atomsOfS vs := by
  simp [atomsOfS]

theorem atomsOfS_obj_cons (fs : List (String × SVal)) (vs : List SVal) :
    atomsOfS (SVal.obj fs :: vs) = atomsOfS vs := by
  simp [atomsOfS]

theorem svalDedupGo_eq_self : ∀ (l : List SVal) (seen : List String),
    (atomsOfS l).Nodup → (∀ s ∈ atomsOfS l, s ∉ seen) →
    svalDedupGo seen l = l := by
  intro l
  induction l with
  | nil => intro seen _ _; rfl
  | cons v vs ih =>
    intro seen hnd hseen
    cases v with
    | atom s =>
      rw [atomsOfS_atom_cons] at hnd hseen
      simp only [svalDedupGo]
      rw [if_neg (hseen s (List.mem_cons_self s _))]
      congr 1
      apply ih
      · exact (List.nodup_cons.mp hnd).2
      · intro t ht htmem
        rcases List.mem_cons.mp htmem with rfl | hts
        · exact (List.nodup_cons.mp hnd).1 ht
        · exact hseen t (List.mem_cons_of_mem s ht) hts
    | arr l2 =>
      rw [atomsOfS_arr_cons] at hnd hseen
      simp only [svalDedupGo]
      rw [ih seen hnd hseen]
    | set l2 =>
      rw [atomsOfS_set_cons] at hnd hseen
      simp only [svalDedupGo]
      rw [ih seen hnd hseen]
    | obj fs =>
      rw [atomsOfS_obj_cons] at hnd hseen
      simp only [svalDedupGo]
      rw [ih seen hnd hseen]

theorem atoms_parseList : ∀ (l : List JVal),
    atomsOfS (parseSerializedList l) = atomsOfJ l := by
  intro l
  induction l with
  | nil => rfl
  | cons v vs ih =>
    cases v with
    | atom s =>
      simp only [parseSerializedList, parseSerialized, atomsOfS_atom_cons]
      rw [ih]
      simp [atomsOfJ]
    | arr l2 =>
      simp only [parseSerializedList, parseSerialized]
      rw [if_neg (by decide : ¬("0" : String) = "trace")]
      rw [atomsOfS_set_cons, ih]
      simp [atomsOfJ]
    | obj fs =>
      simp only [parseSerializedList, parseSerialized, atomsOfS_obj_cons]
      rw [ih]
      simp [atomsOfJ]

mutual

theorem ser_parse : ∀ (key : String) (j : JVal), jsonSetSafe key j = true →
    writeSerialized (parseSerialized key j) = j
  | _, JVal.atom _, _ => rfl
  | key, JVal.arr l, h => by
    simp only [jsonSetSafe, Bool.and_eq_true, Bool.or_eq_true, decide_eq_true_eq] at h
    simp only [parseSerialized]
    split
    · simp only [writeSerialized, ser_parseList l h.2]
    · rename_i hkt
      have hnd : (atomsOfJ l).Nodup := h.1.resolve_left hkt
      have hded : svalDedup (parseSerializedList l) = parseSerializedList l := by
        simp only [svalDedup]
        apply svalDedupGo_eq_self
        · rw [atoms_parseList]
          exact hnd
        · intro s _
          exact List.not_mem_nil s
      simp only [writeSerialized, hded, ser_parseList l h.2]
  | _, JVal.obj fs, h => by
    simp only [jsonSetSafe] at h
    simp only [parseSerialized, writeSerialized, ser_parseFields fs h]

theorem ser_parseList : ∀ (l : List JVal), jsonSetSafeList l = true →
    writeSerializedList (parseSerializedList l) = l
  | [], _ => rfl
  | v :: vs, h => by
    simp only [jsonSetSafeList, Bool.and_eq_true] at h
    simp only [parseSerializedList, writeSerializedList, ser_parse "0" v h.1,
      ser_parseList vs h.2]

theorem ser_parseFields : ∀ (fs : List (String × JVal)), jsonSetSafeFields fs = true →
    writeSerializedFields (parseSerializedFields fs) = fs
  | [], _ => rfl
  | (k, v) :: fs, h => by
    simp only [jsonSetSafeFields, Bool.and_eq_true] at h
    simp only [parseSerializedFields, writeSerializedFields, ser_parse k v h.1,
      ser_parseFields fs h.2]

end

mutual

theorem parse_ser : ∀ (key : String) (x : SVal), roundTrippable key x = true →
    parseSerialized key (writeSerialized x) = x
  | _, SVal.atom _, _ => rfl
  | key, SVal.arr l, h => by
    simp only [roundTrippable, Bool.and_eq_true, decide_eq_true_eq] at h
    simp only [writeSerialized, parseSerialized, if_pos h.1, parse_serList l h.2]
  | key, SVal.set l, h => by
    simp only [roundTrippable, Bool.and_eq_true, Bool.not_eq_true',
      decide_eq_false_iff_not, decide_eq_true_eq] at h
    obtain ⟨⟨hk, hnd⟩, hrt⟩ := h
    have hpl := parse_serList l hrt
    have hded : svalDedup l = l := by
      simp only [svalDedup]
      apply svalDedupGo_eq_self
      · exact hnd
      · intro s _
        exact List.not_mem_nil s
    simp only [writeSerialized, parseSerialized, if_neg hk, hpl, hded]
  | _, SVal.obj fs, h => by
    simp only [roundTrippable] at h
    simp only [writeSerialized, parseSerialized, parse_serFields fs h]

theorem parse_serList : ∀ (l : List SVal), roundTrippableList l = true →
    parseSerializedList (writeSerializedList l) = l
  | [], _ => rfl
  | v :: vs, h => by
    simp only [roundTrippableList, Bool.and_eq_true] at h
    simp only [writeSerializedList, parseSerializedList, parse_ser "0" v h.1,
      parse_serList vs h.2]

theorem parse_serFields : ∀ (fs : List (String × SVal)),
    roundTrippableFields fs = true →
    parseSerializedFields (writeSerializedFields fs) = fs
  | [], _ => rfl
  | (k, v) :: fs, h => by
    simp only [roundTrippableFields, Bool.and_eq_true] at h
    simp only [writeSerializedFields, parseSerializedFields, parse_ser k v h.1,
      parse_serFields fs h.2]

end

/-- Claim C9 counterexample: the reviver deliberately skips re-lifting at the
key `trace`, so a `Set` stored under a field named `trace` (keys of the data
model are arbitrary strings) comes back as a plain array: the parse of the
serialization differs from the original value. -/
theorem parse_serialize_trace_counterexample :
    parseSerialized "" (writeSerialized (SVal.obj [("trace", SVal.set [SVal.atom "a"])])) ≠
      SVal.obj [("trace", SVal.set [SVal.atom "a"])] := by
  intro h
  simp [writeSerialized, writeSerializedFields, writeSerializedList,
    parseSerialized, parseSerializedFields, parseSerializedList] at h

/-- Claim C9 (amended): serialize after parse is the identity on JSON values
whose arrays outside `trace` keys hold no duplicate scalars (forced: the
reviver builds `new Set(value)`, which drops such duplicates), and parse
after serialize is the identity exactly on values whose arrays sit at
`trace` keys, whose sets do not, and whose sets hold no duplicate scalars;
a set stored under a key named `trace` is turned into an array by the round
trip. -/
theorem serialization_round_trip :
    (∀ (key : String) (j : JVal), jsonSetSafe key j = true →
      writeSerialized (parseSerialized key j) = j) ∧
    (∀ (key : String) (x : SVal), roundTrippable key x = true →
      parseSerialized key (writeSerialized x) = x) :=
  ⟨ser_parse, parse_ser⟩

theorem serialization_round_trip_witness :
    writeSerialized (parseSerialized ""
        (JVal.obj [("xs", JVal.arr [JVal.atom "a", JVal.atom "b"])])) =
      JVal.obj [("xs", JVal.arr [JVal.atom "a", JVal.atom "b"])] ∧
    parseSerialized ""
        (writeSerialized (SVal.obj [("marking", SVal.set [SVal.atom "a"]),
          ("trace", SVal.arr [SVal.atom "A"])])) =
      SVal.obj [("marking", SVal.set [SVal.atom "a"]),
        ("trace", SVal.arr [SVal.atom "A"])] :=
  ⟨serialization_round_trip.1 "" _ (by decide),
    serialization_round_trip.2 "" _ (by decide)⟩

section AlignerProofs

variable {α : Type} [LinearOrderedCommRing α]

theorem stepUpdate_inv (curCost : α) (stEntry : AState α)
    (acc : Alignment' α × AState α) (newTr : List Event) (al : Alignment' α)
    (st2 : AState α)
    (hacc : StInv curCost stEntry acc)
    (hs1 : st2.maxCost ≤ acc.2.maxCost)
    (hs2 : al.cost ≠ ⊤ → (curCost : WithTop α) ≤ al.cost ∧ al.cost < acc.2.maxCost)
    (hs3 : st2.maxCost < acc.2.maxCost → al.cost ≠ ⊤ ∧ al.cost ≤ st2.maxCost) :
    StInv curCost stEntry
      (if al.cost < acc.1.cost then
        ({ cost := al.cost, trace := newTr }, { maxCost := al.cost, cache := st2.cache })
      else (acc.1, st2)) := by
  obtain ⟨hA1, hA2, hA3⟩ := hacc
  split
  · rename_i hlt
    have hne : al.cost ≠ ⊤ := ne_top_of_lt (lt_of_lt_of_le hlt le_top)
    obtain ⟨hc1, hc2⟩ := hs2 hne
    exact ⟨le_of_lt (lt_of_lt_of_le hc2 hA1), fun _ => ⟨hc1, lt_of_lt_of_le hc2 hA1⟩,
      fun _ => ⟨hne, le_rfl⟩⟩
  · rename_i hnlt
    refine ⟨le_trans hs1 hA1, hA2, ?_⟩
    intro hlt2
    by_cases hcase : st2.maxCost < acc.2.maxCost
    · obtain ⟨hne, hle⟩ := hs3 hcase
      have hbest : acc.1.cost ≤ al.cost := not_lt.mp hnlt
      have hbne : acc.1.cost ≠ ⊤ :=
        ne_top_of_lt (lt_of_le_of_lt hbest (lt_top_iff_ne_top.mpr hne))
      exact ⟨hbne, le_trans hbest hle⟩
    · have heqq : st2.maxCost = acc.2.maxCost := le_antisymm hs1 (not_lt.mp hcase)
      rw [heqq] at hlt2
      obtain ⟨hbne, hble⟩ := hA3 hlt2
      exact ⟨hbne, by rw [heqq]; exact hble⟩

theorem pruneReturn_inv (curCost : α) (st : AState α) (p : Alignment' α × AState α)
    (hacc : StInv curCost st p) (htop : p.2.maxCost = ⊤) :
    StInv curCost st ({ cost := ⊤, trace := [] }, p.2) :=
  ⟨hacc.1, fun hne => absurd rfl hne, fun hlt => absurd (htop ▸ hlt) not_top_lt⟩

theorem branchFold_inv
    (step : Event → AState α → Option (Alignment' α × AState α)) (keep : Event → Bool)
    (curCost : α) (stEntry : AState α)
    (hstep : ∀ e stb a st2, step e stb = some (a, st2) →
      st2.maxCost ≤ stb.maxCost ∧
      (a.cost ≠ ⊤ → (curCost : WithTop α) ≤ a.cost ∧ a.cost < stb.maxCost) ∧
      (st2.maxCost < stb.maxCost → a.cost ≠ ⊤ ∧ a.cost ≤ st2.maxCost)) :
    ∀ (l : List Event) (acc accOut : Alignment' α × AState α),
      StInv curCost stEntry acc →
      branchFold step keep l acc = some accOut →
      StInv curCost stEntry accOut := by
  intro l
  induction l with
  | nil =>
    intro acc accOut hacc h
    simp only [branchFold] at h
    cases h
    exact hacc
  | cons e es ih =>
    intro acc accOut hacc h
    simp only [branchFold] at h
    by_cases hk : keep e = true
    · rw [if_pos hk] at h
      split at h
      · cases h
      · rename_i al st2 hstepres
        have hs := hstep e acc.2 al st2 hstepres
        exact ih _ accOut
          (stepUpdate_inv curCost stEntry acc (e :: al.trace) al st2 hacc hs.1 hs.2.1 hs.2.2) h
    · rw [if_neg hk] at h
      exact ih acc accOut hacc h

theorem alignTL_inv (g : DCRGraphPP) (ctx : List Label)
    (cf : CostFun α) (toDepth : WithTop α) (pruning : Bool)
    (hcf : ∀ k s, 0 ≤ cf k s) :
    ∀ (fuel : ℕ) (trace : List Label) (m : Marking) (curCost : α) (curDepth : ℕ)
      (st : AState α) (res : Alignment' α × AState α),
      alignTL g ctx cf toDepth pruning fuel trace m curCost curDepth st = some res →
      StInv curCost st res := by
  intro fuel
  induction fuel with
  | zero =>
    intro trace m curCost curDepth st res h
    simp only [alignTL] at h
    exact Option.noConfusion h
  | succ fuel ih =>
    have hstepgen : ∀ (tr : List Label) (mm : Marking) (curCost : α) (c : α)
        (curDepth : ℕ) (e : Event) (stb : AState α) (a : Alignment' α) (st2 : AState α),
        0 ≤ c →
        alignTL g ctx cf toDepth pruning fuel tr mm (curCost + c) curDepth stb =
          some (a, st2) →
        st2.maxCost ≤ stb.maxCost ∧
        (a.cost ≠ ⊤ → (curCost : WithTop α) ≤ a.cost ∧ a.cost < stb.maxCost) ∧
        (st2.maxCost < stb.maxCost → a.cost ≠ ⊤ ∧ a.cost ≤ st2.maxCost) := by
      intro tr mm curCost c curDepth e stb a st2 hc hrec
      obtain ⟨hM, hC, hP⟩ := ih tr mm (curCost + c) curDepth stb (a, st2) hrec
      refine ⟨hM, fun hne => ?_, hP⟩
      obtain ⟨hc1, hc2⟩ := hC hne
      refine ⟨le_trans ?_ hc1, hc2⟩
      exact_mod_cast le_add_of_nonneg_right hc
    intro trace m curCost curDepth st res h
    cases trace with
    | nil =>
      simp only [alignTL] at h
      split at h
      · cases h
        exact ⟨le_rfl, fun hne => absurd rfl hne, fun hlt => absurd hlt (lt_irrefl _)⟩
      · rename_i h1
        split at h
        · cases h
          exact ⟨le_rfl, fun hne => absurd rfl hne, fun hlt => absurd hlt (lt_irrefl _)⟩
        · rename_i h2
          split at h
          · cases h
            exact ⟨le_rfl, fun hne => absurd rfl hne, fun hlt => absurd hlt (lt_irrefl _)⟩
          · rename_i h3
            split at h
            · cases h
              exact ⟨le_rfl, fun _ => ⟨le_rfl, not_le.mp h1⟩,
                fun hlt => absurd hlt (lt_irrefl _)⟩
            · rename_i h4
              split at h
              · rename_i h5
                cases h
                exact ⟨le_rfl, fun hne => absurd rfl hne, fun hlt => absurd hlt (lt_irrefl _)⟩
              · rename_i h5
                refine branchFold_inv _ _ curCost st
                  (fun e stb a st2 hrec => hstepgen [] (execute e g m) curCost
                    (cf CostKind.modelSkip e) (curDepth + 1) e stb a st2
                    (hcf CostKind.modelSkip e) hrec)
                  (getEnabled g.toDCRGraph m) _ res
                  ⟨le_rfl, fun hne => absurd rfl hne, fun hlt => absurd hlt (lt_irrefl _)⟩ h
    | cons l rest =>
      simp only [alignTL] at h
      split at h
      · cases h
        exact ⟨le_rfl, fun hne => absurd rfl hne, fun hlt => absurd hlt (lt_irrefl _)⟩
      · rename_i h1
        split at h
        · cases h
          exact ⟨le_rfl, fun hne => absurd rfl hne, fun hlt => absurd hlt (lt_irrefl _)⟩
        · rename_i h2
          split at h
          · cases h
            exact ⟨le_rfl, fun hne => absurd rfl hne, fun hlt => absurd hlt (lt_irrefl _)⟩
          · rename_i h3
            split at h
            · cases h
              exact ⟨le_rfl, fun _ => ⟨le_rfl, not_le.mp h1⟩,
                fun hlt => absurd hlt (lt_irrefl _)⟩
            · rename_i h4
              -- consume phase
              split at h
              · exact Option.noConfusion h
              · rename_i acc1 heqc
                have hacc1 : StInv curCost st acc1 :=
                  branchFold_inv _ _ curCost st
                    (fun e stb a st2 hrec => hstepgen rest (execute e g m) curCost
                      (cf CostKind.consume e) (curDepth + 1) e stb a st2
                      (hcf CostKind.consume e) hrec)
                    (g.labelMapInv l) _ acc1
                    ⟨le_rfl, fun hne => absurd rfl hne, fun hlt => absurd hlt (lt_irrefl _)⟩
                    heqc
                -- trace-skip phase
                split at h
                · exact Option.noConfusion h
                · rename_i acc2 heqskip
                  split at heqskip
                  · exact Option.noConfusion heqskip
                  · rename_i al st2 heqs
                    obtain ⟨alc, altr⟩ := al
                    have hs := hstepgen rest m curCost (cf CostKind.traceSkip l)
                      (curDepth + 1) "a" acc1.2 ⟨alc, altr⟩ st2
                      (hcf CostKind.traceSkip l) heqs
                    have hacc2 := stepUpdate_inv curCost st acc1 altr ⟨alc, altr⟩ st2
                      hacc1 hs.1 hs.2.1 hs.2.2
                    by_cases hlt : (Alignment'.mk alc altr).cost < acc1.1.cost
                    · rw [if_pos hlt] at heqskip hacc2
                      cases heqskip
                      split at h
                      · rename_i h5
                        cases h
                        simp only [Bool.and_eq_true, decide_eq_true_eq] at h5
                        exact pruneReturn_inv curCost st _ hacc2 h5.1.2
                      · rename_i h5
                        exact branchFold_inv _ _ curCost st
                          (fun e stb a st2b hrec => hstepgen (l :: rest) (execute e g m) curCost
                            (cf CostKind.modelSkip e) (curDepth + 1) e stb a st2b
                            (hcf CostKind.modelSkip e) hrec)
                          (getEnabled g.toDCRGraph m) _ res hacc2 h
                    · rw [if_neg hlt] at heqskip hacc2
                      cases heqskip
                      split at h
                      · rename_i h5
                        cases h
                        simp only [Bool.and_eq_true, decide_eq_true_eq] at h5
                        exact pruneReturn_inv curCost st _ hacc2 h5.1.2
                      · rename_i h5
                        exact branchFold_inv _ _ curCost st
                          (fun e stb a st2b hrec => hstepgen (l :: rest) (execute e g m) curCost
                            (cf CostKind.modelSkip e) (curDepth + 1) e stb a st2b
                            (hcf CostKind.modelSkip e) hrec)
                          (getEnabled g.toDCRGraph m) _ res hacc2 h

end AlignerProofs

/-- Claim C7 (amended): with an infinite depth limit and a non-negative cost
function, whenever `align` returns an alignment of finite cost, that cost is
at most (indeed below) the initial upper bound, the trace-skip sum plus the
cost of aligning the empty trace.  An optimum costing exactly the bound is
cut by the `curCost >= maxCost` check and reported as cost `Infinity`
instead, so the bound does not hold for the returned value unconditionally. -/
theorem align_cost_le_bound {α : Type} [LinearOrderedCommRing α] (fuel : ℕ)
    (trace : List Label) (g : DCRGraphPP) (ctx : List Label) (cf : CostFun α)
    (pruning : Bool) (a : Alignment' α)
    (hcf : ∀ k s, 0 ≤ cf k s)
    (h : align fuel trace g ctx cf ⊤ pruning = some a)
    (hfin : a.cost ≠ ⊤) :
    ∃ b, alignBound fuel trace g ctx cf pruning = some b ∧ a.cost ≤ b := by
  simp only [align] at h
  rw [if_neg (fun hh => hh rfl)] at h
  split at h
  · exact Option.noConfusion h
  · rename_i bnd heqb
    split at heqb
    · exact Option.noConfusion heqb
    · rename_i a0 st0f heq0
      cases heqb
      split at h
      · exact Option.noConfusion h
      · rename_i af stf heqf
        cases h
        have hinv := alignTL_inv g ctx cf ⊤ pruning hcf fuel trace g.marking 0 0 _ _ heqf
        obtain ⟨-, hC, -⟩ := hinv
        obtain ⟨-, hltb⟩ := hC hfin
        refine ⟨(((trace.map (fun l => cf CostKind.traceSkip l)).sum : α) : WithTop α) +
          a0.cost, ?_, le_of_lt hltb⟩
        simp only [alignBound]
        rw [heq0]

theorem align_cost_le_bound_witness :
    ∃ b, alignBound 30 ["A"] gBasePP [] consumeFreeCostFun false = some b ∧
      (Alignment'.mk ((0 : ℤ) : WithTop ℤ) ["a"]).cost ≤ b :=
  align_cost_le_bound 30 ["A"] gBasePP [] consumeFreeCostFun false
    ⟨((0 : ℤ) : WithTop ℤ), ["a"]⟩
    (fun k s => by cases k <;> norm_num [consumeFreeCostFun])
    (by decide) (by decide)

/-- Claim C7 counterexample: one event with a self-condition, an initially
accepting marking, unit costs.  The bound is `trace-skip(A) + 0 = 1`, but the
only way to deal with the token costs exactly 1 and the `>=` futility cut
abandons it, so `align` returns cost `Infinity`, which is not at most the
bound. -/
theorem align_bound_counterexample :
    align 20 ["A"] gSelfCond [] unitCostFun ⊤ false =
        some { cost := ⊤, trace := [] } ∧
      alignBound 20 ["A"] gSelfCond [] unitCostFun false =
        some ((1 : ℤ) : WithTop ℤ) ∧
      ¬ ((⊤ : WithTop ℤ) ≤ ((1 : ℤ) : WithTop ℤ)) := by
  refine ⟨by decide, by decide, ?_⟩
  simp
